import Mathlib

/-!
Shallow embedding of the market-impact scoring engine of `src/app.py`
(module-level configuration tables and the functions `norm_text`,
`contains_any`, `is_trusted`, `is_low_quality`, `has_numeric`,
`score_article`, plus the presentation-layer visibility filter and
priority badge of the News tab).

Python strings are modelled as Lean `String`; arguments that may be
`None` are modelled as `Option String` (`none` = Python `None`).
`str.lower` / `str.strip` are modelled for the ASCII character range,
which covers every character class the configuration tables and claims
exercise (the one non-ASCII character that appears, `₹`, is unaffected
by either operation).
-/

namespace NewsApp

/-- ASCII whitespace, the characters Python's `str.strip` removes
(restricted to the ASCII range). -/
def pySpace (c : Char) : Bool :=
  c = ' ' || c = '\t' || c = '\n' || c = '\r' || c = '\x0b' || c = '\x0c'

/-- Python `str.lower` (ASCII range). -/
def pyLower (s : String) : String := ⟨s.data.map Char.toLower⟩

/-- Python `str.strip` (ASCII whitespace). -/
def pyStrip (s : String) : String :=
  ⟨((s.data.dropWhile pySpace).reverse.dropWhile pySpace).reverse⟩

/-- `needle` is a leading segment of `hay` (char-for-char). -/
def isLeadOf : List Char → List Char → Bool
  | [], _ => true
  | _ :: _, [] => false
  | a :: as, b :: bs => a == b && isLeadOf as bs

/-- Python's `needle in hay` substring test. -/
def containsSub (hay needle : List Char) : Bool :=
  match hay with
  | [] => needle.isEmpty
  | _ :: t => isLeadOf needle hay || containsSub t needle

/-- Substring containment on `String` (Python `k in t`). -/
def strIn (needle hay : String) : Bool := containsSub hay.data needle.data

/-- Rendering of an optional string inside an f-string:
`f"{x}"` prints `None` for `None` and the string itself otherwise. -/
def pyRepr : Option String → String
  | none => "None"
  | some s => s

-- -----------------------------
-- SCORING ENGINE CONFIG (app.py lines 291-337)
-- -----------------------------

/-- The `WEIGHTS` dict of `app.py`. -/
def WEIGHTS : String → Int
  | "earnings_guidance" => 30
  | "M&A_JV" => 25
  | "management_change" => 20
  | "buyback_dividend" => 20
  | "contract_deal" => 25
  | "block_insider" => 25
  | "policy_regulation" => 20
  | "analyst_move" => 15
  | "numeric_mentioned" => 10
  | "trusted_source" => 15
  | "speculative_penalty" => -15
  | "low_quality_penalty" => -10
  | "max_corroboration_bonus" => 20
  | _ => 0

/-- The `HIGH_PRIORITY_KEYWORDS` dict of `app.py`. -/
def HIGH_PRIORITY_KEYWORDS : String → List String
  | "earnings" => ["earnings", "quarter", "q1", "q2", "q3", "q4", "revenue", "profit", "loss", "guidance", "outlook", "beat", "miss", "results"]
  | "MA" => ["acquires", "acquisition", "merger", "demerger", "spin-off", "spin off", "joint venture", "jv"]
  | "management" => ["appoint", "resign", "ceo", "cfo", "chairman", "board", "director", "promoter", "coo", "md"]
  | "corp_action" => ["buyback", "dividend", "split", "bonus issue", "bonus", "rights issue", "rights", "share pledge", "pledge"]
  | "contract" => ["contract", "order", "tender", "deal", "agreement", "licence", "license", "wins order"]
  | "regulatory" => ["sebi", "investigation", "fraud", "lawsuit", "penalty", "fine", "regulation", "ban", "policy", "pli", "subsidy", "tariff"]
  | "analyst" => ["upgrade", "downgrade", "target", "recommendation", "brokerage", "analyst"]
  | "block" => ["block deal", "bulk deal", "blocktrade", "block-trade", "insider", "promoter buy", "promoter selling", "promoter sell"]
  | _ => []

/-- The `TRUSTED_SOURCES` set of `app.py`. -/
def TRUSTED_SOURCES : List String :=
  ["reuters", "bloomberg", "economic times", "economictimes", "livemint",
   "mint", "business standard", "business-standard", "cnbc", "ft",
   "financial times", "press release", "nse", "bse"]

/-- The `LOW_QUALITY_SOURCES` set of `app.py`. -/
def LOW_QUALITY_SOURCES : List String :=
  ["blog", "medium", "wordpress", "forum", "reddit", "quora"]

/-- The `SPECULATIVE_WORDS` list of `app.py`. -/
def SPECULATIVE_WORDS : List String :=
  ["may", "might", "could", "rumour", "rumor", "reportedly", "alleged", "possible", "speculat"]

/-- `norm_text(s)`: `(s or "").strip().lower()`. -/
def norm_text (s : Option String) : String := pyLower (pyStrip (s.getD ""))

/-- `contains_any(text, keywords)`. -/
def contains_any (text : String) (keywords : List String) : Bool :=
  let t := norm_text (some text)
  keywords.any (fun k => strIn k t)

/-- `is_trusted(publisher)`: falsy publishers (modelled as `""`) are
rejected, otherwise any trusted substring of the normalized publisher
counts. -/
def is_trusted (publisher : String) : Bool :=
  if publisher.isEmpty then false
  else
    let p := norm_text (some publisher)
    TRUSTED_SOURCES.any (fun ts => strIn ts p)

/-- `is_low_quality(publisher)`. -/
def is_low_quality (publisher : String) : Bool :=
  if publisher.isEmpty then false
  else
    let p := norm_text (some publisher)
    LOW_QUALITY_SOURCES.any (fun lq => strIn lq p)

-- -----------------------------
-- NUMERIC_PATTERN (app.py line 336), modelled as an executable search.
-- Pattern: [%₹$£€]|(?:\b\d{1,3}(?:,\d{3})*(?:\.\d+)?\b\s*(?:crore|lakh|
--           billion|bn|mn|m|₹|rs\.|rs|rupee|ton|tons|mw|MW|GW)), IGNORECASE.
-- -----------------------------

/-- The regex character class `[%₹$£€]`. -/
def currencyChars : List Char := ['%', '₹', '$', '£', '€']

/-- `\w` for the inputs in scope (ASCII word characters). -/
def isWordChar (c : Char) : Bool := c.isAlphanum || c = '_'

/-- `\s` (ASCII range). -/
def isRegexSpace (c : Char) : Bool := pySpace c

/-- The unit/currency suffix alternatives of the pattern, lowercased
(the regex is compiled with IGNORECASE). -/
def numericSuffixes : List (List Char) :=
  ["crore".data, "lakh".data, "billion".data, "bn".data, "mn".data, "m".data,
   "₹".data, "rs.".data, "rs".data, "rupee".data, "ton".data, "tons".data,
   "mw".data, "gw".data]

/-- Case-insensitive `isLeadOf` (the needle is already lowercase). -/
def isLeadOfCI (needle hay : List Char) : Bool :=
  isLeadOf needle (hay.map Char.toLower)

/-- Consume exactly `n` decimal digits. -/
def consumeDigits : List Char → Nat → Option (List Char)
  | l, 0 => some l
  | [], _ + 1 => none
  | c :: t, n + 1 => if c.isDigit then consumeDigits t n else none

/-- All remainders reachable by consuming zero or more `,\d{3}` groups. -/
def commaRems : List Char → List (List Char)
  | ',' :: a :: b :: c :: t =>
      (',' :: a :: b :: c :: t) ::
        (if a.isDigit && b.isDigit && c.isDigit then commaRems t else [])
  | l => [l]

/-- All remainders reachable by consuming one or more decimal digits. -/
def digitPlusRems : List Char → List (List Char)
  | [] => []
  | c :: t => if c.isDigit then t :: digitPlusRems t else []

/-- All remainders reachable by the optional `(?:\.\d+)?` group. -/
def dotDigitRems (l : List Char) : List (List Char) :=
  l :: (match l with
        | '.' :: t => digitPlusRems t
        | _ => [])

/-- All remainders reachable by `\s*`. -/
def spacesRems : List Char → List (List Char)
  | [] => [[]]
  | c :: t => (c :: t) :: (if isRegexSpace c then spacesRems t else [])

/-- The trailing `\b` after the numeric token: the previous character is
always a digit (a word character), so a boundary holds iff the rest is
empty or starts with a non-word character. -/
def endBoundary : List Char → Bool
  | [] => true
  | c :: _ => !isWordChar c

/-- One of the suffix alternatives matches at this position
(case-insensitively; no trailing anchor in the pattern). -/
def suffixHere (l : List Char) : Bool :=
  numericSuffixes.any (fun s => isLeadOfCI s l)

/-- The second regex alternative
`\b\d{1,3}(?:,\d{3})*(?:\.\d+)?\b\s*(?:suffixes)` matches starting at
the head of `l`, where `prev` is the character just before `l` (if any). -/
def matchQuantity (prev : Option Char) (l : List Char) : Bool :=
  (match prev with | none => true | some p => !isWordChar p) &&
  ([1, 2, 3].any fun d =>
    match consumeDigits l d with
    | none => false
    | some r1 =>
      (commaRems r1).any fun r2 =>
        (dotDigitRems r2).any fun r3 =>
          endBoundary r3 &&
          (spacesRems r3).any fun r4 => suffixHere r4)

/-- `re.search` over the whole string: at each position, either the
character class `[%₹$£€]` matches or the quantity alternative matches. -/
def numericSearch : Option Char → List Char → Bool
  | _, [] => false
  | prev, c :: rest =>
      (currencyChars.contains c) || matchQuantity prev (c :: rest)
        || numericSearch (some c) rest

/-- `has_numeric(text)`: `bool(numeric_re.search(text or ""))`. -/
def has_numeric (text : String) : Bool := numericSearch none text.data

-- -----------------------------
-- score_article (app.py lines 367-422)
-- -----------------------------

/-- The combined text `f"{title} {desc}".lower()`. -/
def txtOf (title desc : Option String) : String :=
  pyLower (pyRepr title ++ " " ++ pyRepr desc)

/-- Number of distinct corroborating publishers that are non-empty and
trusted: `sum(1 for s in set(corroboration_sources) if s and is_trusted(s))`. -/
def trustedCount (l : List String) : Nat :=
  (l.dedup.filter (fun s => !s.isEmpty && is_trusted s)).length

/-- The corroboration bonus of `score_article`: `0` when
`corroboration_sources` is falsy (absent or empty) or the trusted count
is at most 1, otherwise `min(WEIGHTS["max_corroboration_bonus"],
5 * (trusted_count - 1))`. -/
def corroboration_bonus : Option (List String) → Int
  | none => 0
  | some l =>
      if l.isEmpty then 0
      else
        let tc := trustedCount l
        if tc > 1 then min (WEIGHTS "max_corroboration_bonus") (5 * ((tc : Int) - 1))
        else 0

-- The twelve accumulation steps of score_article, in source order.
-- Each step contributes its weight when its condition holds.

def earnings_term (txt : String) : Int :=
  if contains_any txt (HIGH_PRIORITY_KEYWORDS "earnings") then WEIGHTS "earnings_guidance" else 0

def ma_term (txt : String) : Int :=
  if contains_any txt (HIGH_PRIORITY_KEYWORDS "MA") then WEIGHTS "M&A_JV" else 0

def management_term (txt : String) : Int :=
  if contains_any txt (HIGH_PRIORITY_KEYWORDS "management") then WEIGHTS "management_change" else 0

def corp_action_term (txt : String) : Int :=
  if contains_any txt (HIGH_PRIORITY_KEYWORDS "corp_action") then WEIGHTS "buyback_dividend" else 0

def contract_term (txt : String) : Int :=
  if contains_any txt (HIGH_PRIORITY_KEYWORDS "contract") then WEIGHTS "contract_deal" else 0

def regulatory_term (txt : String) : Int :=
  if contains_any txt (HIGH_PRIORITY_KEYWORDS "regulatory") then WEIGHTS "policy_regulation" else 0

def analyst_term (txt : String) : Int :=
  if contains_any txt (HIGH_PRIORITY_KEYWORDS "analyst") then WEIGHTS "analyst_move" else 0

def block_term (txt : String) : Int :=
  if contains_any txt (HIGH_PRIORITY_KEYWORDS "block") then WEIGHTS "block_insider" else 0

def numeric_term (txt : String) : Int :=
  if has_numeric txt then WEIGHTS "numeric_mentioned" else 0

def trusted_term (pub : String) : Int :=
  if is_trusted pub then WEIGHTS "trusted_source" else 0

def low_quality_term (pub : String) : Int :=
  if is_low_quality pub then WEIGHTS "low_quality_penalty" else 0

def speculative_term (txt : String) : Int :=
  if contains_any txt SPECULATIVE_WORDS then WEIGHTS "speculative_penalty" else 0

/-- The `raw` accumulator of `score_article` after the twelve
text/publisher checks (before the corroboration bonus). -/
def raw_total (txt pub : String) : Int :=
  earnings_term txt + ma_term txt + management_term txt + corp_action_term txt
    + contract_term txt + regulatory_term txt + analyst_term txt + block_term txt
    + numeric_term txt + trusted_term pub + low_quality_term pub + speculative_term txt

/-- The ordered (condition, reason label) pairs of the twelve
text/publisher checks of `score_article`. `score_article` appends each
label exactly when its condition holds, in this order. -/
def text_source_entries (txt pub : String) : List (Bool × String) :=
  [(contains_any txt (HIGH_PRIORITY_KEYWORDS "earnings"), "Earnings/Guidance"),
   (contains_any txt (HIGH_PRIORITY_KEYWORDS "MA"), "M&A/JV"),
   (contains_any txt (HIGH_PRIORITY_KEYWORDS "management"), "Management/Govt"),
   (contains_any txt (HIGH_PRIORITY_KEYWORDS "corp_action"), "Corporate Action"),
   (contains_any txt (HIGH_PRIORITY_KEYWORDS "contract"), "Contract/Order"),
   (contains_any txt (HIGH_PRIORITY_KEYWORDS "regulatory"), "Regulatory/Policy"),
   (contains_any txt (HIGH_PRIORITY_KEYWORDS "analyst"), "Broker/Analyst Move"),
   (contains_any txt (HIGH_PRIORITY_KEYWORDS "block"), "Block/Insider Deal"),
   (has_numeric txt, "Numeric Mention"),
   (is_trusted pub, "Trusted Source"),
   (is_low_quality pub, "Low-quality Source (penalized)"),
   (contains_any txt SPECULATIVE_WORDS, "Speculative Language (penalized)")]

/-- All (condition, reason label) pairs of `score_article` in evaluation
order: the twelve text/publisher checks, then the corroboration check
(whose label is appended exactly when the bonus is nonzero). -/
def score_entries (txt pub : String) (corr : Option (List String)) :
    List (Bool × String) :=
  text_source_entries txt pub ++ [(corroboration_bonus corr != 0, "Corroboration")]

/-- The labels of the entries whose condition holds, in order. -/
def reasons_of (entries : List (Bool × String)) : List String :=
  (entries.filter (fun e => e.1)).map (fun e => e.2)

/-- `score_article(title, desc, publisher, corroboration_sources)`.
Returns `(int(max(0, min(100, raw + corroboration_bonus))), reasons)`. -/
def score_article (title desc publisher : Option String)
    (corr : Option (List String)) : Int × List String :=
  let txt := txtOf title desc
  let pub := publisher.getD ""
  (max 0 (min 100 (raw_total txt pub + corroboration_bonus corr)),
   reasons_of (score_entries txt pub corr))

/-- The pre-clamp total: `raw` plus the corroboration bonus, just before
`max(0, min(100, ...))` is applied. -/
def pre_clamp (title desc publisher : Option String)
    (corr : Option (List String)) : Int :=
  raw_total (txtOf title desc) (publisher.getD "") + corroboration_bonus corr

-- -----------------------------
-- Presentation layer, News tab (app.py lines 658-685)
-- -----------------------------

/-- The visibility filter of the News tab: with `only_impact` set, keep
the articles with `score >= threshold`; otherwise keep everything. -/
def visibleScores (only_impact : Bool) (threshold : Int) (scores : List Int) :
    List Int :=
  if only_impact then scores.filter (fun s => s ≥ threshold) else scores

/-- The priority badge of the News tab:
`"High"` if `score >= 70`, else `"Medium"` if `score >= threshold`,
else `"Low"`. -/
def priority_label (threshold score : Int) : String :=
  if score ≥ 70 then "High"
  else if score ≥ threshold then "Medium"
  else "Low"

-- -----------------------------
-- General lemmas about the embedding
-- -----------------------------

theorem reasons_of_append (a b : List (Bool × String)) :
    reasons_of (a ++ b) = reasons_of a ++ reasons_of b := by
  simp [reasons_of]

theorem mem_reasons_of {x : String} {entries : List (Bool × String)} :
    x ∈ reasons_of entries ↔ (true, x) ∈ entries := by
  constructor
  · intro h
    simp only [reasons_of, List.mem_map, List.mem_filter] at h
    obtain ⟨e, ⟨he, hc⟩, hx⟩ := h
    obtain ⟨b, y⟩ := e
    simp only at hc hx
    subst hx
    cases b
    · simp at hc
    · exact he
  · intro h
    simp only [reasons_of, List.mem_map, List.mem_filter]
    exact ⟨(true, x), ⟨h, rfl⟩, rfl⟩

theorem reasons_of_nodup {entries : List (Bool × String)}
    (h : (entries.map (fun e => e.2)).Nodup) : (reasons_of entries).Nodup := by
  have hsub : List.Sublist (entries.filter (fun e => e.1)) entries :=
    List.filter_sublist entries
  have hsub2 : List.Sublist (reasons_of entries) (entries.map (fun e => e.2)) := by
    simpa [reasons_of] using hsub.map (fun e => e.2)
  exact hsub2.nodup h

/-- `score_article` decomposes as the clamped pre-clamp total together
with the matched reason labels. -/
theorem score_article_eq (t d p : Option String) (c : Option (List String)) :
    score_article t d p c =
      (max 0 (min 100 (pre_clamp t d p c)),
       reasons_of (score_entries (txtOf t d) (p.getD "") c)) := rfl

/-- The output of `score_article` depends on the two texts only through
the values of the ten text predicates (eight categories, numeric,
speculative). -/
theorem score_article_congr (t d t' d' p : Option String) (c : Option (List String))
    (h : ∀ key ∈ ["earnings", "MA", "management", "corp_action", "contract",
                  "regulatory", "analyst", "block"],
        contains_any (txtOf t d) (HIGH_PRIORITY_KEYWORDS key) =
          contains_any (txtOf t' d') (HIGH_PRIORITY_KEYWORDS key))
    (hn : has_numeric (txtOf t d) = has_numeric (txtOf t' d'))
    (hs : contains_any (txtOf t d) SPECULATIVE_WORDS =
      contains_any (txtOf t' d') SPECULATIVE_WORDS) :
    score_article t d p c = score_article t' d' p c := by
  have h1 := h "earnings" (by simp)
  have h2 := h "MA" (by simp)
  have h3 := h "management" (by simp)
  have h4 := h "corp_action" (by simp)
  have h5 := h "contract" (by simp)
  have h6 := h "regulatory" (by simp)
  have h7 := h "analyst" (by simp)
  have h8 := h "block" (by simp)
  simp only [score_article, pre_clamp, raw_total, earnings_term, ma_term,
    management_term, corp_action_term, contract_term, regulatory_term,
    analyst_term, block_term, numeric_term, speculative_term,
    score_entries, text_source_entries, h1, h2, h3, h4, h5, h6, h7, h8, hn, hs]

-- -----------------------------
-- Claim theorems
-- -----------------------------

/-- C1: for every input, `score_article` returns a score with
`0 ≤ score ≤ 100`; when the raw weighted sum plus corroboration bonus
(the pre-clamp total) exceeds 100 the score is exactly 100, and when it
is below 0 the score is exactly 0. -/
theorem score_article_range (t d p : Option String) (c : Option (List String)) :
    0 ≤ (score_article t d p c).1 ∧ (score_article t d p c).1 ≤ 100 ∧
    (100 < pre_clamp t d p c → (score_article t d p c).1 = 100) ∧
    (pre_clamp t d p c < 0 → (score_article t d p c).1 = 0) := by
  have h : (score_article t d p c).1 = max 0 (min 100 (pre_clamp t d p c)) := rfl
  rw [h]
  omega

/-- Witness for C1: a saturating article (every category, trusted
source, maximal corroboration; pre-clamp total 225) scores exactly 100,
and a purely penalized article (pre-clamp total -25) scores exactly 0. -/
theorem score_article_range_witness :
    100 < pre_clamp (some "earnings merger ceo dividend contract sebi upgrade insider ₹5 crore")
        (some "") (some "Reuters") (some ["reuters", "bloomberg", "livemint", "cnbc", "nse"]) ∧
    (score_article (some "earnings merger ceo dividend contract sebi upgrade insider ₹5 crore")
        (some "") (some "Reuters") (some ["reuters", "bloomberg", "livemint", "cnbc", "nse"])).1 = 100 ∧
    pre_clamp (some "Company shares may rally on rumoured stake sale")
        (some "") (some "some-random-blog") none < 0 ∧
    (score_article (some "Company shares may rally on rumoured stake sale")
        (some "") (some "some-random-blog") none).1 = 0 :=
  ⟨by decide,
   (score_article_range (some "earnings merger ceo dividend contract sebi upgrade insider ₹5 crore")
      (some "") (some "Reuters") (some ["reuters", "bloomberg", "livemint", "cnbc", "nse"])).2.2.1 (by decide),
   by decide,
   (score_article_range (some "Company shares may rally on rumoured stake sale")
      (some "") (some "some-random-blog") none).2.2.2 (by decide)⟩

/-- C6: scenario B — a speculative title from a low-quality blog scores
0 (raw -25 clamped) with exactly the two penalty labels, low-quality
first. -/
theorem scenarioB_eval :
    score_article (some "Company shares may rally on rumoured stake sale")
        (some "") (some "some-random-blog") none =
      (0, ["Low-quality Source (penalized)", "Speculative Language (penalized)"]) := by
  decide

/-- C9: empty title, description and publisher with no corroboration
score `(0, [])`. -/
theorem empty_input_eval :
    score_article (some "") (some "") (some "") none = (0, []) := by
  decide

/-- C5 counterexample: on scenario A the reasons list has exactly five
labels, so it cannot include six labels as the claim states. -/
theorem scenarioA_cex :
    (score_article (some "Reliance Industries Q2 results beat estimates, declares ₹10 dividend")
        (some "") (some "Reuters") (some ["Reuters", "Bloomberg", "Economic Times"])).2 =
      ["Earnings/Guidance", "Corporate Action", "Numeric Mention", "Trusted Source", "Corroboration"] ∧
    (score_article (some "Reliance Industries Q2 results beat estimates, declares ₹10 dividend")
        (some "") (some "Reuters") (some ["Reuters", "Bloomberg", "Economic Times"])).2.length ≠ 6 := by
  decide

/-- C5 (amended): scenario A matches earnings/guidance (+30), corporate
action (+20), numeric mention (+10), trusted source (+15) and the
corroboration bonus (+10), returning score 85 with exactly these five
labels in the fixed evaluation order. -/
theorem scenarioA_eval :
    score_article (some "Reliance Industries Q2 results beat estimates, declares ₹10 dividend")
        (some "") (some "Reuters") (some ["Reuters", "Bloomberg", "Economic Times"]) =
      (85, ["Earnings/Guidance", "Corporate Action", "Numeric Mention",
            "Trusted Source", "Corroboration"]) := by
  decide

/-- C3 counterexample: the block/insider category already matches via
"insider"; adding the second, different block keyword "block deal" also
introduces the substring "deal", which newly matches the contract/order
category, so score and reasons change. -/
theorem category_idempotence_cex :
    "insider" ∈ HIGH_PRIORITY_KEYWORDS "block" ∧
    "block deal" ∈ HIGH_PRIORITY_KEYWORDS "block" ∧
    contains_any (txtOf (some "insider activity at company") (some ""))
      (HIGH_PRIORITY_KEYWORDS "block") = true ∧
    score_article (some "insider activity at company") (some "") (some "") none =
      (25, ["Block/Insider Deal"]) ∧
    score_article (some "insider activity at company block deal") (some "") (some "") none =
      (50, ["Contract/Order", "Block/Insider Deal"]) := by
  decide

/-- C3 (amended): each category contributes its weight and label at most
once (the reasons list never repeats a label), and adding a second,
different keyword from an already-matched category leaves score and
reasons unchanged provided the enlarged text does not change any other
predicate (no new category, numeric or speculative match). -/
theorem category_idempotence_amended :
    (∀ (t d p : Option String) (c : Option (List String)),
       ((score_article t d p c).2).Nodup) ∧
    (∀ (t d t' d' p : Option String) (c : Option (List String)),
       (∀ key ∈ ["earnings", "MA", "management", "corp_action", "contract",
                 "regulatory", "analyst", "block"],
          contains_any (txtOf t d) (HIGH_PRIORITY_KEYWORDS key) =
            contains_any (txtOf t' d') (HIGH_PRIORITY_KEYWORDS key)) →
       has_numeric (txtOf t d) = has_numeric (txtOf t' d') →
       contains_any (txtOf t d) SPECULATIVE_WORDS =
         contains_any (txtOf t' d') SPECULATIVE_WORDS →
       score_article t d p c = score_article t' d' p c) := by
  constructor
  · intro t d p c
    have h2 : (score_article t d p c).2 =
        reasons_of (score_entries (txtOf t d) (p.getD "") c) := rfl
    rw [h2]
    apply reasons_of_nodup
    have hmap : (score_entries (txtOf t d) (p.getD "") c).map (fun e => e.2) =
        ["Earnings/Guidance", "M&A/JV", "Management/Govt", "Corporate Action",
         "Contract/Order", "Regulatory/Policy", "Broker/Analyst Move",
         "Block/Insider Deal", "Numeric Mention", "Trusted Source",
         "Low-quality Source (penalized)", "Speculative Language (penalized)",
         "Corroboration"] := rfl
    rw [hmap]
    decide
  · exact fun t d t' d' p c h hn hs => score_article_congr t d t' d' p c h hn hs

/-- Witness for C3 (amended): a text matching the earnings category via
"earnings" plus the second earnings keyword "guidance" scores exactly
like the text without "guidance". -/
theorem category_idempotence_witness :
    "guidance" ∈ HIGH_PRIORITY_KEYWORDS "earnings" ∧
    contains_any (txtOf (some "earnings update") (some ""))
      (HIGH_PRIORITY_KEYWORDS "earnings") = true ∧
    score_article (some "earnings guidance update") (some "") (some "") none =
      score_article (some "earnings update") (some "") (some "") none :=
  ⟨by decide, by decide,
   category_idempotence_amended.2 (some "earnings guidance update") (some "")
     (some "earnings update") (some "") (some "") none
     (by decide) (by decide) (by decide)⟩

-- Corroboration bonus lemmas

theorem corroboration_bonus_none : corroboration_bonus none = 0 := rfl

theorem trustedCount_nil : trustedCount [] = 0 := rfl

theorem corroboration_bonus_of_le {l : List String} (h : trustedCount l ≤ 1) :
    corroboration_bonus (some l) = 0 := by
  cases l with
  | nil => rfl
  | cons a t =>
    simp only [corroboration_bonus]
    rw [if_neg (show ¬((a :: t).isEmpty = true) by simp)]
    rw [if_neg (show ¬(trustedCount (a :: t) > 1) by omega)]

theorem corroboration_bonus_of_gt {l : List String} (h : 1 < trustedCount l) :
    corroboration_bonus (some l) =
      min (WEIGHTS "max_corroboration_bonus") (5 * ((trustedCount l : Int) - 1)) := by
  cases l with
  | nil => rw [trustedCount_nil] at h; omega
  | cons a t =>
    simp only [corroboration_bonus]
    rw [if_neg (show ¬((a :: t).isEmpty = true) by simp)]
    rw [if_pos h]

theorem corroboration_bonus_ne_zero {l : List String} (h : 1 < trustedCount l) :
    corroboration_bonus (some l) ≠ 0 := by
  rw [corroboration_bonus_of_gt h]
  have : (2 : Int) ≤ (trustedCount l : Int) := by exact_mod_cast h
  show min (20 : Int) (5 * ((trustedCount l : Int) - 1)) ≠ 0
  omega

/-- C2 counterexample: raising the number of distinct trusted
corroborating publishers from 0 to 2 leaves the score unchanged (both
clamped to 0) even though the bonus (5) is not capped at
`max_corroboration_bonus` (20). -/
theorem corroboration_cex :
    trustedCount ["reuters", "bloomberg"] = 2 ∧
    corroboration_bonus (some ["reuters", "bloomberg"]) = 5 ∧
    corroboration_bonus (some ["reuters", "bloomberg"]) ≠ WEIGHTS "max_corroboration_bonus" ∧
    (score_article (some "") (some "") (some "blog") (some ["reuters", "bloomberg"])).1 =
      (score_article (some "") (some "") (some "blog") none).1 := by
  decide

/-- C2 (amended): with `tc` the number of distinct non-empty trusted
corroborating publishers, `tc ≤ 1` yields no bonus and no label, and
`tc > 1` yields the bonus `min(max_corroboration_bonus, 5*(tc-1))` and
appends "Corroboration"; raising `tc` from 2 to 3 adds exactly 5 to the
score and raising it from 0 or 1 to 2 strictly increases the score,
provided the pre-clamp total stays inside the [0, 100] clamp window
(the clamp can otherwise absorb the bonus). -/
theorem corroboration_amended (t d p : Option String) (l : List String) :
    (trustedCount l ≤ 1 → score_article t d p (some l) = score_article t d p none) ∧
    (1 < trustedCount l →
       corroboration_bonus (some l) =
         min (WEIGHTS "max_corroboration_bonus") (5 * ((trustedCount l : Int) - 1)) ∧
       (score_article t d p (some l)).2 =
         (score_article t d p none).2 ++ ["Corroboration"] ∧
       (score_article t d p (some l)).1 =
         max 0 (min 100 (pre_clamp t d p none + min 20 (5 * ((trustedCount l : Int) - 1))))) ∧
    (∀ l' : List String, trustedCount l = 2 → trustedCount l' = 3 →
       0 ≤ pre_clamp t d p none → pre_clamp t d p none + 10 ≤ 100 →
       (score_article t d p (some l')).1 = (score_article t d p (some l)).1 + 5) ∧
    (∀ l' : List String, trustedCount l ≤ 1 → trustedCount l' = 2 →
       0 ≤ pre_clamp t d p none → pre_clamp t d p none + 5 ≤ 100 →
       (score_article t d p (some l)).1 < (score_article t d p (some l')).1) := by
  have hpre : pre_clamp t d p none =
      raw_total (txtOf t d) (p.getD "") + 0 := rfl
  refine ⟨?_, ?_, ?_, ?_⟩
  · intro h
    have hb := corroboration_bonus_of_le h
    rw [score_article_eq, score_article_eq]
    simp only [pre_clamp, score_entries, hb, corroboration_bonus_none]
  · intro h
    have hb := corroboration_bonus_of_gt h
    have hne := corroboration_bonus_ne_zero h
    refine ⟨hb, ?_, ?_⟩
    · rw [score_article_eq, score_article_eq]
      simp only [score_entries, reasons_of_append]
      have h1 : (corroboration_bonus (some l) != 0) = true := by
        simp [bne_iff_ne, hne]
      have h2 : (corroboration_bonus none != 0) = false := by decide
      rw [h1, h2]
      simp [reasons_of]
    · have s1 : (score_article t d p (some l)).1 =
          max 0 (min 100 (raw_total (txtOf t d) (p.getD "") +
            corroboration_bonus (some l))) := rfl
      rw [s1, hb, hpre]
      show max 0 (min 100 (raw_total (txtOf t d) (p.getD "") +
        min (20 : Int) (5 * ((trustedCount l : Int) - 1)))) = _
      omega
  · intro l' h2 h3 h0 h100
    have hb2 : corroboration_bonus (some l) = 5 := by
      rw [corroboration_bonus_of_gt (by omega), h2]; decide
    have hb3 : corroboration_bonus (some l') = 10 := by
      rw [corroboration_bonus_of_gt (by omega), h3]; decide
    have s1 : (score_article t d p (some l)).1 =
        max 0 (min 100 (raw_total (txtOf t d) (p.getD "") +
          corroboration_bonus (some l))) := rfl
    have s2 : (score_article t d p (some l')).1 =
        max 0 (min 100 (raw_total (txtOf t d) (p.getD "") +
          corroboration_bonus (some l'))) := rfl
    rw [s1, s2, hb2, hb3]
    rw [hpre] at h0 h100
    omega
  · intro l' h1 h2 h0 h100
    have hb1 : corroboration_bonus (some l) = 0 := corroboration_bonus_of_le h1
    have hb2 : corroboration_bonus (some l') = 5 := by
      rw [corroboration_bonus_of_gt (by omega), h2]; decide
    have s1 : (score_article t d p (some l)).1 =
        max 0 (min 100 (raw_total (txtOf t d) (p.getD "") +
          corroboration_bonus (some l))) := rfl
    have s2 : (score_article t d p (some l')).1 =
        max 0 (min 100 (raw_total (txtOf t d) (p.getD "") +
          corroboration_bonus (some l'))) := rfl
    rw [s1, s2, hb1, hb2]
    rw [hpre] at h0 h100
    omega

/-- Witness for C2 (amended): for an article with raw total 30
("earnings", untrusted publisher), one trusted corroborator gives no
bonus, two give score 35, three give score 40 (= 35 + 5). -/
theorem corroboration_amended_witness :
    trustedCount ["x"] ≤ 1 ∧ trustedCount ["reuters", "bloomberg"] = 2 ∧
    trustedCount ["reuters", "bloomberg", "livemint"] = 3 ∧
    score_article (some "earnings") (some "") (some "xyz") (some ["x"]) =
      score_article (some "earnings") (some "") (some "xyz") none ∧
    (score_article (some "earnings") (some "") (some "xyz")
        (some ["reuters", "bloomberg", "livemint"])).1 =
      (score_article (some "earnings") (some "") (some "xyz")
        (some ["reuters", "bloomberg"])).1 + 5 ∧
    (score_article (some "earnings") (some "") (some "xyz") (some ["x"])).1 <
      (score_article (some "earnings") (some "") (some "xyz")
        (some ["reuters", "bloomberg"])).1 :=
  ⟨by decide, by decide, by decide,
   (corroboration_amended (some "earnings") (some "") (some "xyz") ["x"]).1 (by decide),
   (corroboration_amended (some "earnings") (some "") (some "xyz")
      ["reuters", "bloomberg"]).2.2.1 ["reuters", "bloomberg", "livemint"]
      (by decide) (by decide) (by decide) (by decide),
   (corroboration_amended (some "earnings") (some "") (some "xyz") ["x"]).2.2.2
      ["reuters", "bloomberg"] (by decide) (by decide) (by decide) (by decide)⟩

/-- C8 counterexample: with threshold 100 (a valid 0-100 setting), an
article scoring exactly the threshold is classified "High", not
"Medium" as the claim states. -/
theorem presentation_cex :
    (0 : Int) ≤ 100 ∧ (100 : Int) ≤ 100 ∧
    priority_label 100 100 = "High" ∧ priority_label 100 100 ≠ "Medium" := by
  decide

/-- C8 (amended): for every threshold in 0-100 with only-impact
filtering active, an article scoring exactly the threshold is included
and never classified "Low" — it is "Medium" when threshold < 70 and
"High" when threshold ≥ 70; in general the badge is "High" iff
score ≥ 70, "Medium" iff threshold ≤ score < 70, "Low" otherwise. -/
theorem presentation_amended (threshold score : Int)
    (h0 : 0 ≤ threshold) (h1 : threshold ≤ 100) :
    visibleScores true threshold [threshold] = [threshold] ∧
    (threshold ≤ score → score ∈ visibleScores true threshold [score]) ∧
    priority_label threshold threshold ≠ "Low" ∧
    (threshold < 70 → priority_label threshold threshold = "Medium") ∧
    (70 ≤ threshold → priority_label threshold threshold = "High") ∧
    (70 ≤ score → priority_label threshold score = "High") ∧
    (threshold ≤ score → score < 70 → priority_label threshold score = "Medium") ∧
    (score < threshold → score < 70 → priority_label threshold score = "Low") := by
  refine ⟨?_, ?_, ?_, ?_, ?_, ?_, ?_, ?_⟩
  · simp [visibleScores]
  · intro h
    simp [visibleScores, h]
  · unfold priority_label
    split_ifs with ha hb
    · simp
    · simp
    · omega
  · intro h
    unfold priority_label
    rw [if_neg (show ¬(threshold ≥ 70) by omega), if_pos (show threshold ≥ threshold by omega)]
  · intro h
    unfold priority_label
    rw [if_pos (show threshold ≥ 70 by omega)]
  · intro h
    unfold priority_label
    rw [if_pos (show score ≥ 70 by omega)]
  · intro h h70
    unfold priority_label
    rw [if_neg (show ¬(score ≥ 70) by omega), if_pos (show score ≥ threshold by omega)]
  · intro h h70
    unfold priority_label
    rw [if_neg (show ¬(score ≥ 70) by omega), if_neg (show ¬(score ≥ threshold) by omega)]

/-- Witness for C8 (amended): at the default threshold 40, an article
scoring exactly 40 is shown and badged "Medium", one scoring 70 is
"High", and one scoring 39 is "Low". -/
theorem presentation_amended_witness :
    visibleScores true 40 [40] = [40] ∧ priority_label 40 40 = "Medium" ∧
    priority_label 40 70 = "High" ∧ priority_label 40 39 = "Low" :=
  ⟨(presentation_amended 40 40 (by decide) (by decide)).1,
   (presentation_amended 40 40 (by decide) (by decide)).2.2.2.1 (by decide),
   (presentation_amended 40 70 (by decide) (by decide)).2.2.2.2.2.1 (by decide),
   (presentation_amended 40 39 (by decide) (by decide)).2.2.2.2.2.2.2 (by decide) (by decide)⟩

-- Substring lemmas connecting the executable containment test with
-- `List.IsInfix`, and stability of containment under strip/lower.

theorem isLeadOf_iff {n h : List Char} : isLeadOf n h = true ↔ n <+: h := by
  induction n generalizing h with
  | nil => simp [isLeadOf]
  | cons a as ih =>
    cases h with
    | nil => simp [isLeadOf]
    | cons b bs =>
      rw [show isLeadOf (a :: as) (b :: bs) = (a == b && isLeadOf as bs) from rfl]
      rw [Bool.and_eq_true, beq_iff_eq, ih, List.cons_prefix_cons]

theorem containsSub_iff {h n : List Char} : containsSub h n = true ↔ n <:+: h := by
  induction h with
  | nil => simp [containsSub, List.isEmpty_iff]
  | cons c t ih =>
    rw [containsSub, Bool.or_eq_true, isLeadOf_iff, ih, List.infix_cons_iff]

theorem strIn_iff {needle hay : String} :
    strIn needle hay = true ↔ needle.data <:+: hay.data := containsSub_iff

-- Character-level facts about `Char.toLower` (it only moves the 26
-- basic latin capitals), and their consequences for `map Char.toLower`.

/-- The 26 basic latin capital letters, the only characters
`Char.toLower` changes. -/
def upperChars : List Char :=
  ['A', 'B', 'C', 'D', 'E', 'F', 'G', 'H', 'I', 'J', 'K', 'L', 'M',
   'N', 'O', 'P', 'Q', 'R', 'S', 'T', 'U', 'V', 'W', 'X', 'Y', 'Z']

theorem toLower_eq_self_or_upper (c : Char) :
    c.toLower = c ∨ c ∈ upperChars := by
  by_cases h : c.toNat ≥ 65 ∧ c.toNat ≤ 90
  · right
    obtain ⟨h1, h2⟩ := h
    have hc := Char.ofNat_toNat c
    obtain ⟨n, hn⟩ : ∃ n, n = c.toNat := ⟨c.toNat, rfl⟩
    rw [← hn] at h1 h2 hc
    interval_cases n <;> (rw [← hc]; decide)
  · left
    simp only [Char.toLower]
    rw [if_neg h]

theorem toLower_toLower (c : Char) : c.toLower.toLower = c.toLower := by
  rcases toLower_eq_self_or_upper c with h | h
  · rw [h]
    exact h
  · fin_cases h <;> decide

theorem pySpace_toLower (c : Char) : pySpace c.toLower = pySpace c := by
  rcases toLower_eq_self_or_upper c with h | h
  · rw [h]
  · fin_cases h <;> decide

theorem map_toLower_idem (l : List Char) :
    (l.map Char.toLower).map Char.toLower = l.map Char.toLower := by
  rw [List.map_map]
  exact List.map_congr_left (fun a _ => toLower_toLower a)

theorem dropWhile_pySpace_map (l : List Char) :
    (l.map Char.toLower).dropWhile pySpace =
      (l.dropWhile pySpace).map Char.toLower := by
  induction l with
  | nil => rfl
  | cons c t ih =>
    by_cases h : pySpace c = true
    · simp [List.dropWhile_cons, pySpace_toLower, h, ih]
    · simp [List.dropWhile_cons, pySpace_toLower, h]

/-- Stripping commutes with lowercasing (lowercasing never creates or
destroys whitespace). -/
theorem pyStrip_pyLower (s : String) :
    (pyStrip (pyLower s)).data = ((pyStrip s).data).map Char.toLower := by
  show ((((pyLower s).data.dropWhile pySpace).reverse.dropWhile pySpace).reverse) = _
  rw [show (pyLower s).data = s.data.map Char.toLower from rfl]
  rw [dropWhile_pySpace_map, ← List.map_reverse, dropWhile_pySpace_map,
    ← List.map_reverse]
  rfl

/-- The stripped text is an infix of the original text. -/
theorem pyStrip_data_within (s : String) : (pyStrip s).data <:+: s.data := by
  have h1 : s.data.dropWhile pySpace <:+ s.data := List.dropWhile_suffix _
  have h2 : (s.data.dropWhile pySpace).reverse.dropWhile pySpace <:+
      (s.data.dropWhile pySpace).reverse := List.dropWhile_suffix _
  have h3 : ((s.data.dropWhile pySpace).reverse.dropWhile pySpace).reverse <+:
      s.data.dropWhile pySpace := by
    simpa using List.reverse_prefix.mpr h2
  exact h3.isInfix.trans h1.isInfix

-- Edge variants of the strip-stability lemmas: a needle whose first
-- (resp. last) character is not whitespace survives stripping from the
-- front (resp. back), even if it contains whitespace in the middle.

theorem infix_dropWhile_of_head {p : Char → Bool} {n : List Char}
    (hne : n ≠ []) (hh : n.head?.all (fun a => !p a) = true) :
    ∀ u v : List Char, n <:+: (u ++ n ++ v).dropWhile p := by
  intro u v
  induction u with
  | nil =>
    cases n with
    | nil => exact absurd rfl hne
    | cons a n' =>
      have ha : p a = false := by simpa using hh
      rw [List.nil_append, List.cons_append,
        List.dropWhile_cons_of_neg (by simp [ha])]
      exact ⟨[], v, by simp⟩
  | cons b u' ih =>
    rw [List.cons_append, List.cons_append, List.dropWhile_cons]
    by_cases hb : p b = true
    · simpa [hb] using ih
    · rw [if_neg (by simp [hb])]
      exact ⟨b :: u', v, by simp⟩

theorem infix_dropWhile_head {p : Char → Bool} {n l : List Char}
    (hne : n ≠ []) (hh : n.head?.all (fun a => !p a) = true)
    (h : n <:+: l) : n <:+: l.dropWhile p := by
  obtain ⟨u, v, huv⟩ := h
  subst huv
  exact infix_dropWhile_of_head hne hh u v

theorem infix_pyStrip_edge {n : List Char} {s : String}
    (hne : n ≠ []) (hh : n.head?.all (fun a => !pySpace a) = true)
    (hl : n.getLast?.all (fun a => !pySpace a) = true)
    (h : n <:+: s.data) : n <:+: (pyStrip s).data := by
  have h1 : n <:+: s.data.dropWhile pySpace := infix_dropWhile_head hne hh h
  have h2 : n.reverse <:+: (s.data.dropWhile pySpace).reverse :=
    List.reverse_infix.mpr h1
  have hne' : n.reverse ≠ [] := by simpa using hne
  have hh' : n.reverse.head?.all (fun a => !pySpace a) = true := by
    rw [List.head?_reverse]
    exact hl
  have h3 : n.reverse <:+: ((s.data.dropWhile pySpace).reverse.dropWhile pySpace) :=
    infix_dropWhile_head hne' hh' h2
  have h4 := List.reverse_infix.mpr h3
  simpa [pyStrip] using h4

/-- For a needle with non-whitespace first and last character, being
contained in the normalized (stripped + lowered) text is the same as
being contained in the lowered text. -/
theorem norm_infix_iff {k : List Char} {s : String}
    (hne : k ≠ [])
    (hh : k.head?.all (fun a => !pySpace a) = true)
    (hl : k.getLast?.all (fun a => !pySpace a) = true) :
    k <:+: (norm_text (some s)).data ↔ k <:+: (pyLower s).data := by
  have hdata : (norm_text (some s)).data = ((pyStrip s).data).map Char.toLower := rfl
  constructor
  · intro h
    rw [hdata] at h
    have hm : ((pyStrip s).data).map Char.toLower <:+: (s.data).map Char.toLower :=
      List.IsInfix.map _ (pyStrip_data_within s)
    exact h.trans hm
  · intro h
    rw [hdata, ← pyStrip_pyLower]
    exact infix_pyStrip_edge hne hh hl h

-- Decomposition of prefixes and infixes of an append, and the two
-- boundary lemmas showing that the interpolated "none" fragment cannot
-- create or destroy a keyword match across the joining space.

theorem prefix_append_cases {k p r : List Char} (h : k <+: p ++ r) :
    k <+: p ∨ ∃ k2, k = p ++ k2 ∧ k2 <+: r := by
  induction p generalizing k with
  | nil => exact Or.inr ⟨k, by simp, by simpa using h⟩
  | cons a p' ih =>
    cases k with
    | nil => exact Or.inl List.nil_prefix
    | cons b k' =>
      rw [List.cons_append, List.cons_prefix_cons] at h
      obtain ⟨rfl, h2⟩ := h
      rcases ih h2 with h3 | ⟨k2, hk2, h4⟩
      · exact Or.inl (by rw [List.cons_prefix_cons]; exact ⟨rfl, h3⟩)
      · exact Or.inr ⟨k2, by rw [hk2, List.cons_append], h4⟩

theorem infix_append_cases {k p r : List Char} (h : k <:+: p ++ r) :
    k <:+: p ∨ k <:+: r ∨
      ∃ k1 k2, k1 ++ k2 = k ∧ k1 ≠ [] ∧ k2 ≠ [] ∧ k1 <:+ p ∧ k2 <+: r := by
  induction p generalizing k with
  | nil => exact Or.inr (Or.inl (by simpa using h))
  | cons a p' ih =>
    rw [List.cons_append, List.infix_cons_iff] at h
    rcases h with h | h
    · cases k with
      | nil => exact Or.inl List.nil_infix
      | cons b k' =>
        rw [List.cons_prefix_cons] at h
        obtain ⟨rfl, h2⟩ := h
        rcases prefix_append_cases h2 with h3 | ⟨k2, hk2, h4⟩
        · exact Or.inl (List.IsPrefix.isInfix
            (by rw [List.cons_prefix_cons]; exact ⟨rfl, h3⟩))
        · cases k2 with
          | nil =>
            rw [List.append_nil] at hk2
            subst hk2
            exact Or.inl (List.infix_refl _)
          | cons c k2' =>
            refine Or.inr (Or.inr ⟨b :: p', c :: k2', ?_, by simp, by simp,
              List.suffix_refl _, h4⟩)
            rw [hk2]
            rfl
    · rcases ih h with h3 | h3 | ⟨k1, k2, hk, hne1, hne2, hsuf, hpre⟩
      · exact Or.inl (List.infix_cons h3)
      · exact Or.inr (Or.inl h3)
      · refine Or.inr (Or.inr ⟨k1, k2, hk, hne1, hne2, ?_, hpre⟩)
        obtain ⟨w, hw⟩ := hsuf
        exact ⟨a :: w, by rw [← hw]; rfl⟩

/-- Title side: prepending the lowered rendering "none " to the text
does not change containment of a keyword that is not an infix of "none"
and does not start with a nonempty suffix of "none" followed by a
space. -/
theorem infix_none_block_left {k u : List Char}
    (h1 : containsSub ('n' :: 'o' :: 'n' :: 'e' :: []) k = false)
    (f1 : isLeadOf ('e' :: ' ' :: []) k = false)
    (f2 : isLeadOf ('n' :: 'e' :: ' ' :: []) k = false)
    (f3 : isLeadOf ('o' :: 'n' :: 'e' :: ' ' :: []) k = false)
    (f4 : isLeadOf ('n' :: 'o' :: 'n' :: 'e' :: ' ' :: []) k = false) :
    k <:+: ('n' :: 'o' :: 'n' :: 'e' :: []) ++ (' ' :: u) ↔ k <:+: (' ' :: u) := by
  constructor
  · intro h
    rcases infix_append_cases h with h3 | h3 | ⟨k1, k2, hk, hne1, hne2, hsuf, hpre⟩
    · rw [← containsSub_iff, h1] at h3
      exact absurd h3 (by simp)
    · exact h3
    · exfalso
      cases k2 with
      | nil => exact hne2 rfl
      | cons c k2' =>
        rw [List.cons_prefix_cons] at hpre
        obtain ⟨rfl, -⟩ := hpre
        have hmem : k1 ∈ (('n' :: 'o' :: 'n' :: 'e' :: []) : List Char).tails :=
          (List.mem_tails _ _).mpr hsuf
        have hlead : isLeadOf (k1 ++ [' ']) k = true := by
          rw [isLeadOf_iff, ← hk]
          exact ⟨k2', by simp⟩
        fin_cases hmem <;>
          simp only [List.cons_append, List.nil_append] at hlead
        · rw [f4] at hlead
          exact Bool.false_ne_true hlead
        · rw [f3] at hlead
          exact Bool.false_ne_true hlead
        · rw [f2] at hlead
          exact Bool.false_ne_true hlead
        · rw [f1] at hlead
          exact Bool.false_ne_true hlead
        · exact hne1 rfl
  · intro h
    exact h.trans (List.IsSuffix.isInfix
      (List.suffix_append ('n' :: 'o' :: 'n' :: 'e' :: []) (' ' :: u)))

/-- Description side: appending the lowered rendering " none" to the
text does not change containment of a keyword that is not an infix of
"none" and does not end with a space followed by a nonempty prefix of
"none". -/
theorem infix_none_block_right {k v : List Char}
    (h1 : containsSub ('n' :: 'o' :: 'n' :: 'e' :: []) k = false)
    (g1 : isLeadOf ('n' :: ' ' :: []) k.reverse = false)
    (g2 : isLeadOf ('o' :: 'n' :: ' ' :: []) k.reverse = false)
    (g3 : isLeadOf ('n' :: 'o' :: 'n' :: ' ' :: []) k.reverse = false)
    (g4 : isLeadOf ('e' :: 'n' :: 'o' :: 'n' :: ' ' :: []) k.reverse = false) :
    k <:+: v ++ (' ' :: 'n' :: 'o' :: 'n' :: 'e' :: []) ↔ k <:+: v ++ (' ' :: []) := by
  have hshape : v ++ (' ' :: 'n' :: 'o' :: 'n' :: 'e' :: []) =
      (v ++ (' ' :: [])) ++ ('n' :: 'o' :: 'n' :: 'e' :: []) := by simp
  constructor
  · intro h
    rw [hshape] at h
    rcases infix_append_cases h with h3 | h3 | ⟨k1, k2, hk, hne1, hne2, hsuf, hpre⟩
    · exact h3
    · rw [← containsSub_iff, h1] at h3
      exact absurd h3 (by simp)
    · exfalso
      -- k1 is a nonempty suffix of v ++ [' '], so it ends with ' ';
      -- k2 is a nonempty prefix of "none".
      have hk1last : k1.getLast? = some ' ' := by
        obtain ⟨w', hw'⟩ := hsuf
        have := congrArg List.getLast? hw'
        rw [List.getLast?_append, List.getLast?_concat] at this
        cases hk1 : k1.getLast? with
        | none =>
          rw [List.getLast?_eq_none_iff] at hk1
          exact absurd hk1 hne1
        | some x =>
          rw [hk1, Option.or_some] at this
          exact this
      have hk1rev : ∃ w, k1.reverse = ' ' :: w := by
        have hhead : k1.reverse.head? = some ' ' := by
          rw [List.head?_reverse]
          exact hk1last
        cases hrev : k1.reverse with
        | nil =>
          rw [hrev] at hhead
          simp at hhead
        | cons x w =>
          rw [hrev] at hhead
          simp only [List.head?_cons, Option.some.injEq] at hhead
          exact ⟨w, by rw [hhead]⟩
      obtain ⟨w, hw⟩ := hk1rev
      have hmem : k2 ∈ (('n' :: 'o' :: 'n' :: 'e' :: []) : List Char).inits :=
        (List.mem_inits _ _).mpr hpre
      have hlead : isLeadOf (k2.reverse ++ [' ']) k.reverse = true := by
        rw [isLeadOf_iff, ← hk, List.reverse_append, hw]
        exact ⟨w, by simp⟩
      fin_cases hmem <;>
        simp only [List.reverse_cons, List.reverse_nil, List.nil_append,
          List.cons_append, List.append_nil] at hlead
      · exact hne2 rfl
      · rw [g1] at hlead
        exact Bool.false_ne_true hlead
      · rw [g2] at hlead
        exact Bool.false_ne_true hlead
      · rw [g3] at hlead
        exact Bool.false_ne_true hlead
      · rw [g4] at hlead
        exact Bool.false_ne_true hlead
  · intro h
    rw [hshape]
    exact h.trans ⟨[], 'n' :: 'o' :: 'n' :: 'e' :: [], by simp⟩

/-- The decidable side conditions under which a keyword's containment
is unaffected by the interpolated "None" rendering: nonempty, no
whitespace at either edge, not an infix of "none", and no decomposition
straddling the joining space (neither starting with a nonempty suffix
of "none" plus a space, nor ending with a space plus a nonempty prefix
of "none"). Every keyword of the configuration satisfies this. -/
def KeywordOK (k : String) : Prop :=
  k.data ≠ [] ∧
  k.data.head?.all (fun a => !pySpace a) = true ∧
  k.data.getLast?.all (fun a => !pySpace a) = true ∧
  containsSub ('n' :: 'o' :: 'n' :: 'e' :: []) k.data = false ∧
  isLeadOf ('e' :: ' ' :: []) k.data = false ∧
  isLeadOf ('n' :: 'e' :: ' ' :: []) k.data = false ∧
  isLeadOf ('o' :: 'n' :: 'e' :: ' ' :: []) k.data = false ∧
  isLeadOf ('n' :: 'o' :: 'n' :: 'e' :: ' ' :: []) k.data = false ∧
  isLeadOf ('n' :: ' ' :: []) k.data.reverse = false ∧
  isLeadOf ('o' :: 'n' :: ' ' :: []) k.data.reverse = false ∧
  isLeadOf ('n' :: 'o' :: 'n' :: ' ' :: []) k.data.reverse = false ∧
  isLeadOf ('e' :: 'n' :: 'o' :: 'n' :: ' ' :: []) k.data.reverse = false

instance (k : String) : Decidable (KeywordOK k) := by
  unfold KeywordOK
  exact inferInstance

theorem any_congr_mem {α : Type} {l : List α} {f g : α → Bool}
    (h : ∀ x ∈ l, f x = g x) : l.any f = l.any g := by
  induction l with
  | nil => rfl
  | cons a t ih =>
    simp only [List.any_cons]
    rw [h a (by simp), ih (fun x hx => h x (by simp [hx]))]

/-- A `None` title is rendered as "None", so the normalized text gains
the prefix "none "; an OK keyword is contained in it iff it is
contained in the text with an empty title. -/
theorem strIn_norm_none_title (d k : String) (hOK : KeywordOK k) :
    strIn k (norm_text (some (txtOf none (some d)))) =
      strIn k (norm_text (some (txtOf (some "") (some d)))) := by
  obtain ⟨hne0, hh, hl, hc1, fe, fne, fone, fnone, -, -, -, -⟩ := hOK
  have e1 : (pyLower (txtOf none (some d))).data =
      'n' :: 'o' :: 'n' :: 'e' :: ' ' :: (d.data.map Char.toLower) := by
    show ((('N' :: 'o' :: 'n' :: 'e' :: ' ' :: d.data).map Char.toLower).map
      Char.toLower) = _
    rw [map_toLower_idem]
    exact rfl
  have e2 : (pyLower (txtOf (some "") (some d))).data =
      ' ' :: (d.data.map Char.toLower) := by
    show (((' ' :: d.data).map Char.toLower).map Char.toLower) = _
    rw [map_toLower_idem]
    exact rfl
  have i1 := norm_infix_iff (k := k.data) (s := txtOf none (some d)) hne0 hh hl
  have i2 := norm_infix_iff (k := k.data) (s := txtOf (some "") (some d)) hne0 hh hl
  have i3 : k.data <:+: (pyLower (txtOf none (some d))).data ↔
      k.data <:+: (pyLower (txtOf (some "") (some d))).data := by
    rw [e1, e2]
    exact infix_none_block_left hc1 fe fne fone fnone
  have hiff : strIn k (norm_text (some (txtOf none (some d)))) = true ↔
      strIn k (norm_text (some (txtOf (some "") (some d)))) = true := by
    rw [strIn_iff, strIn_iff]
    exact (i1.trans i3).trans i2.symm
  cases hA : strIn k (norm_text (some (txtOf none (some d)))) <;>
    cases hB : strIn k (norm_text (some (txtOf (some "") (some d)))) <;>
    simp_all

/-- A `None` description is rendered as "None", so the normalized text
gains the suffix " none"; an OK keyword is contained in it iff it is
contained in the text with an empty description. -/
theorem strIn_norm_none_desc (t k : String) (hOK : KeywordOK k) :
    strIn k (norm_text (some (txtOf (some t) none))) =
      strIn k (norm_text (some (txtOf (some t) (some "")))) := by
  obtain ⟨hne0, hh, hl, hc1, -, -, -, -, gn, gon, gnon, genon⟩ := hOK
  have e1 : (pyLower (txtOf (some t) none)).data =
      (t.data.map Char.toLower) ++ (' ' :: 'n' :: 'o' :: 'n' :: 'e' :: []) := by
    show (((t ++ " " ++ "None").data.map Char.toLower).map Char.toLower) = _
    rw [map_toLower_idem]
    rw [show ((t ++ " " ++ "None") : String).data =
      t.data ++ (' ' :: 'N' :: 'o' :: 'n' :: 'e' :: []) from by
        simp [List.append_assoc]]
    rw [List.map_append]
    rfl
  have e2 : (pyLower (txtOf (some t) (some ""))).data =
      (t.data.map Char.toLower) ++ (' ' :: []) := by
    show (((t ++ " " ++ "").data.map Char.toLower).map Char.toLower) = _
    rw [map_toLower_idem]
    rw [show ((t ++ " " ++ "") : String).data = t.data ++ (' ' :: []) from by
      simp [List.append_assoc]]
    rw [List.map_append]
    rfl
  have i1 := norm_infix_iff (k := k.data) (s := txtOf (some t) none) hne0 hh hl
  have i2 := norm_infix_iff (k := k.data) (s := txtOf (some t) (some "")) hne0 hh hl
  have i3 : k.data <:+: (pyLower (txtOf (some t) none)).data ↔
      k.data <:+: (pyLower (txtOf (some t) (some ""))).data := by
    rw [e1, e2]
    exact infix_none_block_right hc1 gn gon gnon genon
  have hiff : strIn k (norm_text (some (txtOf (some t) none))) = true ↔
      strIn k (norm_text (some (txtOf (some t) (some "")))) = true := by
    rw [strIn_iff, strIn_iff]
    exact (i1.trans i3).trans i2.symm
  cases hA : strIn k (norm_text (some (txtOf (some t) none))) <;>
    cases hB : strIn k (norm_text (some (txtOf (some t) (some "")))) <;>
    simp_all

theorem contains_any_none_title (d : String) (kws : List String)
    (hk : ∀ k ∈ kws, KeywordOK k) :
    contains_any (txtOf none (some d)) kws =
      contains_any (txtOf (some "") (some d)) kws := by
  unfold contains_any
  exact any_congr_mem (fun k hkm => strIn_norm_none_title d k (hk k hkm))

theorem contains_any_none_desc (t : String) (kws : List String)
    (hk : ∀ k ∈ kws, KeywordOK k) :
    contains_any (txtOf (some t) none) kws =
      contains_any (txtOf (some t) (some "")) kws := by
  unfold contains_any
  exact any_congr_mem (fun k hkm => strIn_norm_none_desc t k (hk k hkm))

theorem infix_dropWhile_of_not {p : Char → Bool} {n : List Char}
    (hn : ∀ c ∈ n, p c = false) (hne : n ≠ []) :
    ∀ u v : List Char, n <:+: (u ++ n ++ v).dropWhile p := by
  intro u v
  induction u with
  | nil =>
    cases n with
    | nil => exact absurd rfl hne
    | cons a n' =>
      rw [List.nil_append, List.cons_append,
        List.dropWhile_cons_of_neg (by simp [hn a (by simp)])]
      exact ⟨[], v, by simp⟩
  | cons b u' ih =>
    rw [List.cons_append, List.cons_append, List.dropWhile_cons]
    by_cases hb : p b
    · simpa [hb] using ih
    · rw [if_neg (by simp [hb])]
      exact ⟨b :: u', v, by simp⟩

theorem infix_dropWhile {p : Char → Bool} {n l : List Char}
    (hn : ∀ c ∈ n, p c = false) (hne : n ≠ []) (h : n <:+: l) :
    n <:+: l.dropWhile p := by
  obtain ⟨u, v, huv⟩ := h
  subst huv
  exact infix_dropWhile_of_not hn hne u v

theorem infix_pyStrip {n : List Char} {s : String}
    (hn : ∀ c ∈ n, pySpace c = false) (hne : n ≠ [])
    (h : n <:+: s.data) : n <:+: (pyStrip s).data := by
  have h1 : n <:+: s.data.dropWhile pySpace := infix_dropWhile hn hne h
  have h2 : n.reverse <:+: (s.data.dropWhile pySpace).reverse :=
    List.reverse_infix.mpr h1
  have h3 : n.reverse <:+: ((s.data.dropWhile pySpace).reverse.dropWhile pySpace) :=
    infix_dropWhile (by simpa using hn) (by simpa using hne) h2
  have h4 : n.reverse.reverse <:+:
      ((s.data.dropWhile pySpace).reverse.dropWhile pySpace).reverse :=
    List.reverse_infix.mpr h3
  simpa [pyStrip] using h4

/-- A keyword without whitespace whose lowercase form is itself is still
contained after `norm_text` (strip + lower). -/
theorem strIn_norm_text {k s : String}
    (hk1 : ∀ c ∈ k.data, pySpace c = false) (hk2 : k.data ≠ [])
    (hk3 : k.data.map Char.toLower = k.data)
    (h : strIn k s = true) : strIn k (norm_text (some s)) = true := by
  rw [strIn_iff] at h ⊢
  have h1 : k.data <:+: (pyStrip s).data := infix_pyStrip hk1 hk2 h
  have h2 : k.data.map Char.toLower <:+: (pyStrip s).data.map Char.toLower :=
    List.IsInfix.map Char.toLower h1
  rw [hk3] at h2
  exact h2

/-- C10: whenever the space-joined lowercased title+description text
contains the substring "may" anywhere (a month name or a fragment of a
longer word included), `score_article` applies the -15 speculative
penalty and appends its reason label. -/
theorem speculative_may_substring (t d p : Option String) (c : Option (List String))
    (h : strIn "may" (txtOf t d) = true) :
    speculative_term (txtOf t d) = -15 ∧
    "Speculative Language (penalized)" ∈ (score_article t d p c).2 := by
  have hnorm : strIn "may" (norm_text (some (txtOf t d))) = true :=
    strIn_norm_text (by decide) (by decide) (by decide) h
  have hc : contains_any (txtOf t d) SPECULATIVE_WORDS = true := by
    unfold contains_any
    rw [List.any_eq_true]
    exact ⟨"may", by simp [SPECULATIVE_WORDS], hnorm⟩
  constructor
  · simp only [speculative_term, hc, if_true]
    decide
  · have hr : (score_article t d p c).2 =
        reasons_of (score_entries (txtOf t d) (p.getD "") c) := rfl
    rw [hr, mem_reasons_of]
    have hm : (contains_any (txtOf t d) SPECULATIVE_WORDS,
        "Speculative Language (penalized)") ∈
          text_source_entries (txtOf t d) (p.getD "") := by
      simp [text_source_entries]
    rw [hc] at hm
    simp only [score_entries]
    exact List.mem_append_left _ hm

/-- Witness for C10: the month name "May" and the word "dismay" both
trigger the speculative penalty. -/
theorem speculative_may_witness :
    strIn "may" (txtOf (some "Earnings call scheduled for May 5") (some "")) = true ∧
    "Speculative Language (penalized)" ∈
      (score_article (some "Earnings call scheduled for May 5") (some "")
        (some "") none).2 ∧
    strIn "may" (txtOf (some "Investors react with dismay") (some "")) = true ∧
    speculative_term (txtOf (some "Investors react with dismay") (some "")) = -15 :=
  ⟨by decide,
   (speculative_may_substring (some "Earnings call scheduled for May 5") (some "")
     (some "") none (by decide)).2,
   by decide,
   (speculative_may_substring (some "Investors react with dismay") (some "")
     (some "") none (by decide)).1⟩

-- The declarative reading of the numeric regex search.

/-- The character standing just before the current position, given the
character before the scanned segment and the characters already
scanned. -/
def prevOf (prev : Option Char) : List Char → Option Char
  | [] => prev
  | c :: t => prevOf (some c) t

/-- Declarative reading of `has_numeric`: at some position of the text a
currency symbol `[%₹$£€]` occurs, or the quantity-with-unit-suffix
alternative of the pattern matches. -/
def NumericSpec (l : List Char) : Prop :=
  ∃ pre c post, l = pre ++ c :: post ∧
    (c ∈ currencyChars ∨ matchQuantity (prevOf none pre) (c :: post) = true)

theorem numericSearch_iff (l : List Char) : ∀ prev,
    numericSearch prev l = true ↔
      ∃ pre c post, l = pre ++ c :: post ∧
        (c ∈ currencyChars ∨ matchQuantity (prevOf prev pre) (c :: post) = true) := by
  induction l with
  | nil =>
    intro prev
    constructor
    · intro h
      simp [numericSearch] at h
    · rintro ⟨pre, c, post, heq, -⟩
      exact absurd heq (by simp)
  | cons a rest ih =>
    intro prev
    rw [show numericSearch prev (a :: rest) =
        (currencyChars.contains a || matchQuantity prev (a :: rest)
          || numericSearch (some a) rest) from rfl]
    rw [Bool.or_eq_true, Bool.or_eq_true, ih (some a)]
    constructor
    · rintro ((h | h) | h)
      · exact ⟨[], a, rest, rfl, Or.inl (by simpa using h)⟩
      · exact ⟨[], a, rest, rfl, Or.inr h⟩
      · obtain ⟨pre, c, post, heq, hor⟩ := h
        exact ⟨a :: pre, c, post, by simp [heq], hor⟩
    · rintro ⟨pre, c, post, heq, hor⟩
      cases pre with
      | nil =>
        simp only [List.nil_append] at heq
        injection heq with h1 h2
        subst h1
        subst h2
        rcases hor with h | h
        · exact Or.inl (Or.inl (by simpa using h))
        · exact Or.inl (Or.inr h)
      | cons b pre' =>
        simp only [List.cons_append] at heq
        injection heq with h1 h2
        subst h1
        exact Or.inr ⟨pre', c, post, h2, hor⟩

-- Invariance of the numeric search under the " none" / " " tail
-- difference produced by a None description: the " none" fragment
-- contains no digit, no currency character and no unit suffix, and it
-- starts with the same space in both variants, so no stage of the
-- pattern can distinguish the two texts.

/-- The lowered rendering " none" appended by a `None` description. -/
def noneTail : List Char := ' ' :: 'n' :: 'o' :: 'n' :: 'e' :: []

/-- The single space appended by an empty description. -/
def spaceTail : List Char := ' ' :: []

theorem commaRems_cons4 (a b c : Char) (t : List Char) :
    commaRems (',' :: a :: b :: c :: t) =
      (',' :: a :: b :: c :: t) ::
        (if a.isDigit && b.isDigit && c.isDigit then commaRems t else []) := rfl

theorem commaRems_ne_comma {d : Char} (h : d ≠ ',') (rest : List Char) :
    commaRems (d :: rest) = [d :: rest] := by
  rw [commaRems.eq_def]
  split
  · rename_i a b c t heq
    injection heq with h1 h2
    exact absurd h1 h
  · rfl

theorem consumeDigits_tails : ∀ (w : List Char) (n : Nat),
    (∃ w', consumeDigits (w ++ noneTail) n = some (w' ++ noneTail) ∧
           consumeDigits (w ++ spaceTail) n = some (w' ++ spaceTail)) ∨
    (consumeDigits (w ++ noneTail) n = none ∧
     consumeDigits (w ++ spaceTail) n = none)
  | [], 0 => Or.inl ⟨[], rfl, rfl⟩
  | [], _ + 1 => Or.inr ⟨rfl, rfl⟩
  | c :: w', 0 => Or.inl ⟨c :: w', rfl, rfl⟩
  | c :: w', n + 1 => by
    by_cases hc : c.isDigit = true
    · rcases consumeDigits_tails w' n with ⟨w1, hA, hB⟩ | ⟨hA, hB⟩
      · exact Or.inl ⟨w1, by simp [consumeDigits, hc, hA],
          by simp [consumeDigits, hc, hB]⟩
      · exact Or.inr ⟨by simp [consumeDigits, hc, hA],
          by simp [consumeDigits, hc, hB]⟩
    · exact Or.inr ⟨by simp [consumeDigits, hc], by simp [consumeDigits, hc]⟩

theorem commaRems_tails : ∀ w : List Char,
    ∃ ws : List (List Char),
      commaRems (w ++ noneTail) = ws.map (fun x => x ++ noneTail) ∧
      commaRems (w ++ spaceTail) = ws.map (fun x => x ++ spaceTail)
  | [] => ⟨[[]], rfl, rfl⟩
  | [d] => by
    by_cases hd : d = ','
    · subst hd
      exact ⟨[[',']], rfl, rfl⟩
    · exact ⟨[[d]], commaRems_ne_comma hd _, commaRems_ne_comma hd _⟩
  | [d, a] => by
    by_cases hd : d = ','
    · subst hd
      refine ⟨[[',', a]], ?_, ?_⟩
      · rw [show ([',', a] ++ noneTail) =
          (',' :: a :: ' ' :: 'n' :: ('o' :: 'n' :: 'e' :: [])) from rfl,
          commaRems_cons4]
        simp [noneTail]
      · rfl
    · exact ⟨[[d, a]], commaRems_ne_comma hd _, commaRems_ne_comma hd _⟩
  | [d, a, b] => by
    by_cases hd : d = ','
    · subst hd
      refine ⟨[[',', a, b]], ?_, ?_⟩
      · rw [show ([',', a, b] ++ noneTail) =
          (',' :: a :: b :: ' ' :: ('n' :: 'o' :: 'n' :: 'e' :: [])) from rfl,
          commaRems_cons4]
        simp [noneTail]
      · rw [show ([',', a, b] ++ spaceTail) =
          (',' :: a :: b :: ' ' :: ([] : List Char)) from rfl, commaRems_cons4]
        simp [spaceTail]
    · exact ⟨[[d, a, b]], commaRems_ne_comma hd _, commaRems_ne_comma hd _⟩
  | d :: a :: b :: c :: t => by
    by_cases hd : d = ','
    · subst hd
      by_cases habc : (a.isDigit && b.isDigit && c.isDigit) = true
      · obtain ⟨ws, hA, hB⟩ := commaRems_tails t
        refine ⟨(',' :: a :: b :: c :: t) :: ws, ?_, ?_⟩
        · rw [show ((',' :: a :: b :: c :: t) ++ noneTail) =
            (',' :: a :: b :: c :: (t ++ noneTail)) from rfl, commaRems_cons4,
            if_pos habc, hA]
          rfl
        · rw [show ((',' :: a :: b :: c :: t) ++ spaceTail) =
            (',' :: a :: b :: c :: (t ++ spaceTail)) from rfl, commaRems_cons4,
            if_pos habc, hB]
          rfl
      · refine ⟨[',' :: a :: b :: c :: t], ?_, ?_⟩
        · rw [show ((',' :: a :: b :: c :: t) ++ noneTail) =
            (',' :: a :: b :: c :: (t ++ noneTail)) from rfl, commaRems_cons4,
            if_neg habc]
          rfl
        · rw [show ((',' :: a :: b :: c :: t) ++ spaceTail) =
            (',' :: a :: b :: c :: (t ++ spaceTail)) from rfl, commaRems_cons4,
            if_neg habc]
          rfl
    · exact ⟨[d :: a :: b :: c :: t], commaRems_ne_comma hd _,
        commaRems_ne_comma hd _⟩

theorem digitPlusRems_tails : ∀ w : List Char,
    ∃ ws : List (List Char),
      digitPlusRems (w ++ noneTail) = ws.map (fun x => x ++ noneTail) ∧
      digitPlusRems (w ++ spaceTail) = ws.map (fun x => x ++ spaceTail)
  | [] => ⟨[], rfl, rfl⟩
  | c :: w' => by
    by_cases hc : c.isDigit = true
    · obtain ⟨ws, hA, hB⟩ := digitPlusRems_tails w'
      exact ⟨w' :: ws, by simp [digitPlusRems, hc, hA],
        by simp [digitPlusRems, hc, hB]⟩
    · exact ⟨[], by simp [digitPlusRems, hc], by simp [digitPlusRems, hc]⟩

theorem dotDigitRems_tails : ∀ w : List Char,
    ∃ ws : List (List Char),
      dotDigitRems (w ++ noneTail) = ws.map (fun x => x ++ noneTail) ∧
      dotDigitRems (w ++ spaceTail) = ws.map (fun x => x ++ spaceTail)
  | [] => ⟨[[]], rfl, rfl⟩
  | c :: w' => by
    by_cases hc : c = '.'
    · subst hc
      obtain ⟨ws, hA, hB⟩ := digitPlusRems_tails w'
      refine ⟨('.' :: w') :: ws, ?_, ?_⟩
      · show ('.' :: (w' ++ noneTail)) :: digitPlusRems (w' ++ noneTail) = _
        rw [hA]
        rfl
      · show ('.' :: (w' ++ spaceTail)) :: digitPlusRems (w' ++ spaceTail) = _
        rw [hB]
        rfl
    · refine ⟨[c :: w'], ?_, ?_⟩
      · show (c :: (w' ++ noneTail)) ::
          (match c :: (w' ++ noneTail) with
            | '.' :: t => digitPlusRems t
            | _ => ([] : List (List Char))) = [(c :: w') ++ noneTail]
        congr 1
        split
        · rename_i t' heq
          injection heq with h1 h2
          exact absurd h1 hc
        · rfl
      · show (c :: (w' ++ spaceTail)) ::
          (match c :: (w' ++ spaceTail) with
            | '.' :: t => digitPlusRems t
            | _ => ([] : List (List Char))) = [(c :: w') ++ spaceTail]
        congr 1
        split
        · rename_i t' heq
          injection heq with h1 h2
          exact absurd h1 hc
        · rfl

theorem endBoundary_tails : ∀ w : List Char,
    endBoundary (w ++ noneTail) = endBoundary (w ++ spaceTail) := by
  intro w
  cases w with
  | nil => rfl
  | cons c t => rfl

theorem isLeadOf_tails : ∀ (mw s : List Char), ' ' ∉ s →
    isLeadOf s (mw ++ noneTail) = isLeadOf s (mw ++ spaceTail)
  | [], s, hs => by
    cases s with
    | nil => rfl
    | cons c s' =>
      have hc : (c == ' ') = false := by
        simp only [beq_eq_false_iff_ne]
        intro hcc
        exact hs (by simp [hcc])
      show (c == ' ' && isLeadOf s' ('n' :: 'o' :: 'n' :: 'e' :: [])) =
        (c == ' ' && isLeadOf s' [])
      rw [hc]
      rfl
  | a :: mw', s, hs => by
    cases s with
    | nil => rfl
    | cons c s' =>
      show (c == a && isLeadOf s' (mw' ++ noneTail)) =
        (c == a && isLeadOf s' (mw' ++ spaceTail))
      rw [isLeadOf_tails mw' s' (fun h => hs (by simp [h]))]

theorem suffixHere_tails (w : List Char) :
    suffixHere (w ++ noneTail) = suffixHere (w ++ spaceTail) := by
  unfold suffixHere
  apply any_congr_mem
  intro s hsm
  unfold isLeadOfCI
  rw [List.map_append, List.map_append,
    show (noneTail.map Char.toLower) = noneTail from by decide,
    show (spaceTail.map Char.toLower) = spaceTail from by decide]
  refine isLeadOf_tails (w.map Char.toLower) s ?_
  have hns : ∀ x ∈ numericSuffixes, ' ' ∉ x := by decide
  exact hns s hsm

theorem spaces_suffix_tails : ∀ w : List Char,
    (spacesRems (w ++ noneTail)).any (fun r4 => suffixHere r4) =
      (spacesRems (w ++ spaceTail)).any (fun r4 => suffixHere r4)
  | [] => by decide
  | c :: w' => by
    rw [show ((c :: w') ++ noneTail) = c :: (w' ++ noneTail) from rfl,
        show ((c :: w') ++ spaceTail) = c :: (w' ++ spaceTail) from rfl]
    simp only [spacesRems, List.any_cons]
    have h1 := suffixHere_tails (c :: w')
    simp only [List.cons_append] at h1
    rw [h1]
    by_cases hc : isRegexSpace c = true
    · simp only [hc, if_true]
      rw [spaces_suffix_tails w']
    · simp only [hc, Bool.false_eq_true, if_false]

theorem matchQuantity_tails (prev : Option Char) (w : List Char) :
    matchQuantity prev (w ++ noneTail) = matchQuantity prev (w ++ spaceTail) := by
  unfold matchQuantity
  congr 1
  apply any_congr_mem
  intro dd _
  rcases consumeDigits_tails w dd with ⟨w1, hA, hB⟩ | ⟨hA, hB⟩
  · rw [hA, hB]
    obtain ⟨ws2, h2A, h2B⟩ := commaRems_tails w1
    simp only [h2A, h2B, List.any_map]
    apply any_congr_mem
    intro w2 _
    simp only [Function.comp]
    obtain ⟨ws3, h3A, h3B⟩ := dotDigitRems_tails w2
    simp only [h3A, h3B, List.any_map]
    apply any_congr_mem
    intro w3 _
    simp only [Function.comp]
    rw [endBoundary_tails w3, spaces_suffix_tails w3]
  · rw [hA, hB]

theorem numericSearch_tails : ∀ (v : List Char) (prev : Option Char),
    numericSearch prev (v ++ noneTail) = numericSearch prev (v ++ spaceTail)
  | [], prev => by
    have h := matchQuantity_tails prev []
    simp only [List.nil_append] at h
    show (currencyChars.contains ' ' || matchQuantity prev noneTail
        || numericSearch (some ' ') ('n' :: 'o' :: 'n' :: 'e' :: [])) =
      (currencyChars.contains ' ' || matchQuantity prev spaceTail
        || numericSearch (some ' ') [])
    rw [h, show numericSearch (some ' ') ('n' :: 'o' :: 'n' :: 'e' :: []) = false
      from by decide]
    rfl
  | c :: v', prev => by
    show (currencyChars.contains c || matchQuantity prev (c :: (v' ++ noneTail))
        || numericSearch (some c) (v' ++ noneTail)) =
      (currencyChars.contains c || matchQuantity prev (c :: (v' ++ spaceTail))
        || numericSearch (some c) (v' ++ spaceTail))
    have h := matchQuantity_tails prev (c :: v')
    simp only [List.cons_append] at h
    rw [h, numericSearch_tails v' (some c)]

/-- A `None` title scores like an empty title for the numeric check:
the interpolated prefix "none " contains no digit and no currency
symbol, so the search proceeds identically from the joining space. -/
theorem has_numeric_none_title (d : String) :
    has_numeric (txtOf none (some d)) =
      has_numeric (txtOf (some "") (some d)) := rfl

/-- A `None` description scores like an empty description for the
numeric check. -/
theorem has_numeric_none_desc (t : String) :
    has_numeric (txtOf (some t) none) =
      has_numeric (txtOf (some t) (some "")) := by
  have e1 : (txtOf (some t) none).data =
      (t.data.map Char.toLower) ++ noneTail := by
    show ((t ++ " " ++ "None").data).map Char.toLower = _
    rw [show ((t ++ " " ++ "None") : String).data =
      t.data ++ (' ' :: 'N' :: 'o' :: 'n' :: 'e' :: []) from by
        simp [List.append_assoc]]
    rw [List.map_append]
    rfl
  have e2 : (txtOf (some t) (some "")).data =
      (t.data.map Char.toLower) ++ spaceTail := by
    show ((t ++ " " ++ "").data).map Char.toLower = _
    rw [show ((t ++ " " ++ "") : String).data = t.data ++ (' ' :: []) from by
      simp [List.append_assoc]]
    rw [List.map_append]
    rfl
  show numericSearch none ((txtOf (some t) none).data) =
    numericSearch none ((txtOf (some t) (some "")).data)
  rw [e1, e2]
  exact numericSearch_tails (t.data.map Char.toLower) none

/-- C7: the numeric-mention label is in the reasons exactly when the
combined lowercased text contains, at some position, a currency symbol
or a formatted quantity followed by a unit suffix; in that case the
numeric weight +10 is contributed, otherwise 0. -/
theorem numeric_mention_iff (t d p : Option String) (c : Option (List String)) :
    (("Numeric Mention" ∈ (score_article t d p c).2) ↔ NumericSpec (txtOf t d).data) ∧
    (NumericSpec (txtOf t d).data → numeric_term (txtOf t d) = 10) ∧
    (¬NumericSpec (txtOf t d).data → numeric_term (txtOf t d) = 0) := by
  have hn : has_numeric (txtOf t d) = true ↔ NumericSpec (txtOf t d).data := by
    rw [show has_numeric (txtOf t d) = numericSearch none (txtOf t d).data from rfl]
    rw [numericSearch_iff]
    exact Iff.rfl
  refine ⟨?_, ?_, ?_⟩
  · have hr : (score_article t d p c).2 =
        reasons_of (score_entries (txtOf t d) (p.getD "") c) := rfl
    rw [hr, mem_reasons_of, ← hn]
    simp [score_entries, text_source_entries, Prod.ext_iff]
  · intro h
    rw [← hn] at h
    simp only [numeric_term, h, if_true]
    decide
  · intro h
    rw [← hn] at h
    simp only [numeric_term, Bool.not_eq_true] at h ⊢
    rw [h]
    decide

/-- Witness for C7: "price rises to ₹10" satisfies the declarative
numeric pattern and receives the +10 numeric weight. -/
theorem numeric_mention_witness :
    NumericSpec (txtOf (some "price rises to ₹10") (some "")).data ∧
    numeric_term (txtOf (some "price rises to ₹10") (some "")) = 10 :=
  ⟨(numeric_mention_iff (some "price rises to ₹10") (some "") (some "") none).1.mp
     (by decide),
   (numeric_mention_iff (some "price rises to ₹10") (some "") (some "") none).2.1
     ((numeric_mention_iff (some "price rises to ₹10") (some "") (some "") none).1.mp
       (by decide))⟩

/-- A `None` title next to an arbitrary description scores exactly like
an empty title. -/
theorem score_article_none_title (d : String) (p : Option String)
    (c : Option (List String)) :
    score_article none (some d) p c = score_article (some "") (some d) p c := by
  apply score_article_congr
  · intro key hkey
    have hcfg : ∀ k ∈ HIGH_PRIORITY_KEYWORDS key, KeywordOK k := by
      fin_cases hkey <;> decide
    exact contains_any_none_title d _ hcfg
  · exact has_numeric_none_title d
  · exact contains_any_none_title d SPECULATIVE_WORDS (by decide)

/-- A `None` description next to an arbitrary title scores exactly like
an empty description. -/
theorem score_article_none_desc (t : String) (p : Option String)
    (c : Option (List String)) :
    score_article (some t) none p c = score_article (some t) (some "") p c := by
  apply score_article_congr
  · intro key hkey
    have hcfg : ∀ k ∈ HIGH_PRIORITY_KEYWORDS key, KeywordOK k := by
      fin_cases hkey <;> decide
    exact contains_any_none_desc t _ hcfg
  · exact has_numeric_none_desc t
  · exact contains_any_none_desc t SPECULATIVE_WORDS (by decide)

/-- C4: `score_article` is a total function of its inputs, and a `None`
argument contributes nothing: a `None` publisher scores exactly like an
empty one, a `None` title (alone, next to any description) scores
exactly like an empty title, a `None` description (alone, next to any
title) scores exactly like an empty description — even though the
f-string renders `None` as the text "None", no configured predicate can
match across it — and the all-`None` call returns `(0, [])` rather than
failing. -/
theorem none_inputs_neutral (t d p : Option String) (c : Option (List String)) :
    score_article t d none c = score_article t d (some "") c ∧
    score_article none d p c = score_article (some "") d p c ∧
    score_article t none p c = score_article t (some "") p c ∧
    score_article none none none none = (0, []) := by
  have hboth : score_article none none p c = score_article (some "") (some "") p c :=
    score_article_congr none none (some "") (some "") p c
      (by decide) (by decide) (by decide)
  refine ⟨rfl, ?_, ?_, by decide⟩
  · cases d with
    | some d' => exact score_article_none_title d' p c
    | none =>
      rw [hboth, ← score_article_none_desc "" p c]
  · cases t with
    | some t' => exact score_article_none_desc t' p c
    | none =>
      rw [hboth, ← score_article_none_title "" p c]

end NewsApp


